import Mathlib

/-!
Shallow embedding of the permutation-table subsystem of the `noise` crate
(`src/permutationtable.rs`): construction of the 256-entry permutation table
from a 32-bit seed or from an external randomness source, the multi-axis
coordinate hashing fold, the serde sequence codec, and the opaque debug
rendering.

Modelling conventions:
- `u8` values are `Nat`s; where a claim needs the byte bound it is an
  explicit hypothesis `v < 256` (Rust enforces it by the `u8` type).
- `isize` coordinates are `Int`; Rust's `a & 0xff` on `isize` is
  `Int.land a 255` (two's-complement bitwise and), and the subsequent
  `as usize` cast is `Int.toNat` (the masked value is already in `0..=255`).
- Rust slice indexing `self.values[a]`, which panics when out of bounds, is
  the partial lookup `l[a]?`; the `.unwrap()` on the iterator `reduce` is the
  `Option` layer of `hash`.
- The external generators (`XorShiftRng`, and any `R: Rng` handed to
  `Distribution::sample`) are modelled abstractly as a state type `σ` with a
  step function `next : σ → Nat × σ` producing raw generator words, and
  `SeedableRng::from_seed` as an uninterpreted `fromSeed16 : List Nat → σ`.
  `rand`'s `gen_index(rng, ubound)`, documented to return a uniform index
  below `ubound`, is a raw word reduced modulo the bound — exactly the
  in-range guarantee every draw satisfies.
-/

set_option maxRecDepth 8000

def TABLE_SIZE : Nat := 256

/-- The permutation table: `values: [u8; TABLE_SIZE]`. -/
structure PermutationTable where
  values : List Nat
deriving DecidableEq

/-- Per-coordinate raw index: `(a & 0xff) as usize` on an `isize` coordinate. -/
def rawIndex (a : Int) : Nat := (Int.land a (Int.ofNat 255)).toNat

/-- The `reduce(|a, b| self.values[a] as usize ^ b)` fold of `hash`, with the
accumulator seeded by the first mapped element; lookups are partial as in
Rust slice indexing. -/
def hashFold (t : PermutationTable) : Nat → List Nat → Option Nat
  | a, [] => some a
  | a, b :: rest =>
    match t.values[a]? with
    | some v => hashFold t (v ^^^ b) rest
    | none => none

/-- `NoiseHasher::hash` for `PermutationTable`: map coordinates through
`rawIndex`, `reduce` with the xor-of-lookup fold (`none` models the
`unwrap` panic on an empty slice), then one final table lookup. -/
def PermutationTable.hash (t : PermutationTable) (coords : List Int) : Option Nat :=
  match coords.map rawIndex with
  | [] => none
  | x :: xs =>
    match hashFold t x xs with
    | some index => t.values[index]?
    | none => none

/-- Spec-side table lookup `table[i]`, total on the spec's well-formed tables. -/
def tableAt (t : PermutationTable) (i : Nat) : Nat := t.values.getD i 0

/-- Spec-side description of the hash (refinement target, following the
spec's words): accumulator starts as the first raw index; for each
subsequent raw index `v`, new accumulator = `table[accumulator] XOR v`;
result is `table[accumulator]`. -/
def hashSpec (t : PermutationTable) (c : Int) (rest : List Int) : Nat :=
  tableAt t (rest.foldl (fun acc v => Nat.xor (tableAt t acc) (rawIndex v)) (rawIndex c))

/-- Serialization: the exact ordered sequence of the 256 values, index order
`0..256` (`for value in self.values { seq.serialize_element(&value)?; }`). -/
def PermutationTable.serialize (t : PermutationTable) : List Nat := t.values

/-- The deserializer's error text:
`format!("PermutationTable must have exactly {} elements, found {}", TABLE_SIZE, i)`. -/
def deErrorMsg (found : Nat) : String :=
  "PermutationTable must have exactly " ++ toString TABLE_SIZE ++ " elements, found "
    ++ toString found

/-- The `for i in 0..TABLE_SIZE` loop of `visit_seq`: `remaining` iterations
left, filling `vals` from index `i` with the next elements of `seq`
(`seq.next_element()?` is the head of the remaining element stream); when the
stream runs dry the loop fails with the count-reporting error. -/
def fillFrom (vals : List Nat) (seq : List Nat) (i : Nat) : Nat → Except String (List Nat)
  | 0 => .ok vals
  | remaining + 1 =>
    match seq with
    | [] => .error (deErrorMsg i)
    | v :: rest => fillFrom (vals.set i v) rest (i + 1) remaining

/-- `PermutationTableDeserializer::visit_seq`: start from `values: [0; TABLE_SIZE]`
and run the fill loop for exactly `TABLE_SIZE` iterations over the element
stream `seq`. -/
def visit_seq (seq : List Nat) : Except String PermutationTable :=
  match fillFrom (List.replicate TABLE_SIZE 0) seq 0 TABLE_SIZE with
  | .ok vals => .ok ⟨vals⟩
  | .error e => .error e

/-- `fmt::Debug for PermutationTable`: the fixed placeholder, independent of
the table's contents. -/
def PermutationTable.fmtDebug (_t : PermutationTable) : String :=
  "PermutationTable \x7b .. \x7d"

/-- `rand`'s `gen_index(rng, ubound)`: one generator draw, uniform below
`ubound`; modelled as an arbitrary generator word reduced modulo the bound,
which is exactly the in-range guarantee. -/
def genIndex {σ : Type} (next : σ → Nat × σ) (ubound : Nat) (s : σ) : Nat × σ :=
  let p := next s
  (p.1 % ubound, p.2)

/-- `<[T]>::swap(i, j)` on the value list (both indices are always in bounds
at every call site; the fallback branch is never reached there). -/
def listSwap (l : List Nat) (i j : Nat) : List Nat :=
  match l[i]?, l[j]? with
  | some a, some b => (l.set i b).set j a
  | _, _ => l

/-- The Fisher-Yates loop of `SliceRandom::shuffle`:
`for i in (1..len).rev() { self.swap(i, gen_index(rng, i + 1)); }`.
The counter argument is the current value of `i`; at counter `i + 1` the loop
body swaps index `i + 1` with a uniform draw below `i + 2`. -/
def shuffleGo {σ : Type} (next : σ → Nat × σ) : List Nat → σ → Nat → List Nat × σ
  | vals, s, 0 => (vals, s)
  | vals, s, i + 1 =>
    let p := genIndex next (i + 2) s
    shuffleGo next (listSwap vals (i + 1) p.1) p.2 i

/-- `SliceRandom::shuffle`, starting the loop at `len - 1`. -/
def shuffle {σ : Type} (next : σ → Nat × σ) (vals : List Nat) (s : σ) : List Nat × σ :=
  shuffleGo next vals s (vals.length - 1)

/-- `Distribution::<PermutationTable>::sample`: initialize `values[i] = i as u8`
for `i` in `0..TABLE_SIZE`, then shuffle in place with the supplied generator. -/
def sample {σ : Type} (next : σ → Nat × σ) (s : σ) : PermutationTable × σ :=
  let p := shuffle next (List.range TABLE_SIZE) s
  (⟨p.1⟩, p.2)

/-- One iteration of the seed-expansion loop of `PermutationTable::new`:
write the four little-endian bytes of the seed (`as u8` truncation after the
bit shifts) at offsets `i * 4 .. i * 4 + 3`. -/
def writeSeedBlock (seed : Nat) (real : List Nat) (i : Nat) : List Nat :=
  ((((real.set (i * 4) (seed % 256)).set
      (i * 4 + 1) ((seed >>> 8) % 256)).set
      (i * 4 + 2) ((seed >>> 16) % 256)).set
      (i * 4 + 3) ((seed >>> 24) % 256))

/-- The 16-byte expansion buffer of `PermutationTable::new`:
`let mut real = [0; 16]; real[0] = 1;` then the block loop `for i in 1..4`. -/
def newBuffer (seed : Nat) : List Nat :=
  List.foldl (writeSeedBlock seed) ((List.replicate 16 0).set 0 1) [1, 2, 3]

/-- `PermutationTable::new(seed)`: seed the generator from the expansion
buffer (`SeedableRng::from_seed(real)`), then `rng.gen()`, i.e. `sample`. -/
def PermutationTable.new {σ : Type} (next : σ → Nat × σ) (fromSeed16 : List Nat → σ)
    (seed : Nat) : PermutationTable :=
  (sample next (fromSeed16 (newBuffer seed))).1

/-! ### Bitwise facts about the raw per-axis index -/

theorem ldiff255_eq_xor_mod (m : Nat) : Nat.ldiff 255 m = 255 ^^^ (m % 256) := by
  apply Nat.eq_of_testBit_eq
  intro i
  rw [Nat.testBit_ldiff, Nat.testBit_xor]
  rcases Nat.lt_or_ge i 8 with h | h
  · have h255 : Nat.testBit 255 i = true := by
      have := Nat.testBit_two_pow_sub_one 8 i
      simpa [h] using this
    have hmod : Nat.testBit (m % 256) i = Nat.testBit m i := by
      have := Nat.testBit_mod_two_pow m 8 i
      simpa [h] using this
    simp [h255, hmod]
  · have h255 : Nat.testBit 255 i = false := by
      have := Nat.testBit_two_pow_sub_one 8 i
      simpa [Nat.not_lt.mpr h] using this
    have hmod : Nat.testBit (m % 256) i = false := by
      apply Nat.testBit_lt_two_pow
      calc m % 256 < 256 := Nat.mod_lt _ (by norm_num)
        _ ≤ 2 ^ i := by
            calc (256 : ℕ) = 2 ^ 8 := by norm_num
              _ ≤ 2 ^ i := Nat.pow_le_pow_right (by norm_num) h
    simp [h255, hmod]

theorem xor255_eq_sub (x : Nat) (h : x < 256) : 255 ^^^ x = 255 - x := by
  have key : ∀ y : Fin 256, 255 ^^^ y.val = 255 - y.val := by decide
  exact key ⟨x, h⟩

theorem land255_eq_emod (a : Int) : Int.land a (Int.ofNat 255) = a % 256 := by
  cases a with
  | ofNat n =>
    show Int.ofNat (n &&& 255) = Int.ofNat n % 256
    have hn : n &&& 255 = n % 256 := by
      have := Nat.and_pow_two_sub_one_eq_mod n 8
      norm_num at this
      exact this
    rw [hn, Int.ofNat_eq_natCast, Int.ofNat_eq_natCast, Int.ofNat_emod]
    norm_num
  | negSucc m =>
    show Int.ofNat (Nat.ldiff 255 m) = Int.negSucc m % 256
    rw [ldiff255_eq_xor_mod, xor255_eq_sub _ (Nat.mod_lt _ (by norm_num)), Int.negSucc_eq,
      Int.ofNat_eq_natCast]
    omega

theorem rawIndex_eq_emod (a : Int) : rawIndex a = (a % 256).toNat := by
  unfold rawIndex
  rw [land255_eq_emod]

theorem rawIndex_lt (a : Int) : rawIndex a < 256 := by
  rw [rawIndex_eq_emod]
  have h1 : 0 ≤ a % 256 := Int.emod_nonneg a (by norm_num)
  have h2 : a % 256 < 256 := Int.emod_lt_of_pos a (by norm_num)
  omega

theorem rawIndex_land (c : Int) : rawIndex (Int.land c (Int.ofNat 255)) = rawIndex c := by
  rw [rawIndex_eq_emod, rawIndex_eq_emod, land255_eq_emod, Int.emod_emod_of_dvd c dvd_rfl]

theorem rawIndex_add_mul (c k : Int) : rawIndex (c + 256 * k) = rawIndex c := by
  rw [rawIndex_eq_emod, rawIndex_eq_emod, Int.add_mul_emod_self_left]

/-! ### The hashing fold -/

theorem tableAt_eq_getElem (t : PermutationTable) (i : Nat) (h : i < t.values.length) :
    tableAt t i = t.values[i] := by
  unfold tableAt
  rw [List.getD_eq_getElem?_getD, List.getElem?_eq_getElem h]
  rfl

theorem lookup_eq_some_tableAt (t : PermutationTable) (i : Nat) (h : i < t.values.length) :
    t.values[i]? = some (tableAt t i) := by
  rw [List.getElem?_eq_getElem h, tableAt_eq_getElem t i h]

theorem tableAt_lt (t : PermutationTable) (hb : ∀ v ∈ t.values, v < 256) (i : Nat)
    (h : i < t.values.length) : tableAt t i < 256 := by
  rw [tableAt_eq_getElem t i h]
  exact hb _ (List.getElem_mem h)

theorem hashFold_eq_foldl (t : PermutationTable) (h256 : t.values.length = 256)
    (hb : ∀ v ∈ t.values, v < 256) :
    ∀ (xs : List Nat) (a : Nat), a < 256 → (∀ x ∈ xs, x < 256) →
      hashFold t a xs = some (xs.foldl (fun acc v => Nat.xor (tableAt t acc) v) a) ∧
      xs.foldl (fun acc v => Nat.xor (tableAt t acc) v) a < 256 := by
  intro xs
  induction xs with
  | nil => exact fun a ha _ => ⟨rfl, ha⟩
  | cons b rest ih =>
    intro a ha hx
    have hlt : a < t.values.length := by omega
    have hv : tableAt t a < 256 := tableAt_lt t hb a hlt
    have hxor : Nat.xor (tableAt t a) b < 256 := by
      have h8 : (256 : Nat) = 2 ^ 8 := by norm_num
      rw [h8] at hv ⊢
      exact Nat.xor_lt_two_pow hv (by rw [← h8]; exact hx b (List.mem_cons_self b rest))
    obtain ⟨ih1, ih2⟩ :=
      ih (Nat.xor (tableAt t a) b) hxor (fun x hx' => hx x (List.mem_cons_of_mem _ hx'))
    refine ⟨?_, by rw [List.foldl_cons]; exact ih2⟩
    simp only [hashFold, lookup_eq_some_tableAt t a hlt]
    rw [List.foldl_cons]
    exact ih1

theorem hash_cons_eq (t : PermutationTable) (h256 : t.values.length = 256)
    (hb : ∀ v ∈ t.values, v < 256) (c : Int) (rest : List Int) :
    t.hash (c :: rest) = some (hashSpec t c rest) ∧ hashSpec t c rest < 256 := by
  have hmap : ∀ x ∈ rest.map rawIndex, x < 256 := by
    intro x hx
    obtain ⟨d, _, rfl⟩ := List.mem_map.mp hx
    exact rawIndex_lt d
  obtain ⟨h1, h2⟩ :=
    hashFold_eq_foldl t h256 hb (rest.map rawIndex) (rawIndex c) (rawIndex_lt c) hmap
  have h3 := lookup_eq_some_tableAt t
    ((rest.map rawIndex).foldl (fun acc v => Nat.xor (tableAt t acc) v) (rawIndex c))
    (by omega)
  constructor
  · simp only [PermutationTable.hash, List.map_cons, h1, h3]
    simp only [hashSpec, List.foldl_map]
  · have h4 : hashSpec t c rest =
        tableAt t ((rest.map rawIndex).foldl (fun acc v => Nat.xor (tableAt t acc) v)
          (rawIndex c)) := by
      simp only [hashSpec, List.foldl_map]
    rw [h4]
    exact tableAt_lt t hb _ (by omega)

/-- Claim C2: for every byte-valued table and every non-empty coordinate
sequence, `hash` returns exactly the spec's left-fold: accumulator starts as
the first raw index `c & 0xff`; each subsequent raw index `v` updates it to
`table[acc] XOR v`; the result is `table[acc]`. -/
theorem hash_eq_hashSpec (t : PermutationTable) (h256 : t.values.length = 256)
    (hb : ∀ v ∈ t.values, v < 256) (c : Int) (rest : List Int) :
    t.hash (c :: rest) = some (hashSpec t c rest) :=
  (hash_cons_eq t h256 hb c rest).1

/-- Witness for C2 at the identity table and coordinates `[1, 2, 3]`. -/
theorem hash_eq_hashSpec_witness :
    PermutationTable.hash ⟨List.range 256⟩ [1, 2, 3] =
      some (hashSpec ⟨List.range 256⟩ 1 [2, 3]) :=
  hash_eq_hashSpec ⟨List.range 256⟩ (by decide) (by decide) 1 [2, 3]

/-- Claim C5: for every byte-valued table and non-empty coordinate sequence
the hash succeeds (the `reduce` of a non-empty iterator is `Some`, every
lookup is in bounds) and the returned index is in `[0, 255]`; being a pure
function of the table and coordinates, repeated calls agree by definition. -/
theorem hash_isSome_and_lt (t : PermutationTable) (h256 : t.values.length = 256)
    (hb : ∀ v ∈ t.values, v < 256) (coords : List Int) (hne : coords ≠ []) :
    (t.hash coords).isSome = true ∧ (t.hash coords).getD 0 < 256 := by
  cases coords with
  | nil => exact absurd rfl hne
  | cons c rest =>
    obtain ⟨h1, h2⟩ := hash_cons_eq t h256 hb c rest
    rw [h1]
    exact ⟨rfl, h2⟩

/-- Witness for C5 at the identity table and coordinates `[5, 17, 255]`. -/
theorem hash_isSome_and_lt_witness :
    (PermutationTable.hash ⟨List.range 256⟩ [5, 17, 255]).isSome = true ∧
      (PermutationTable.hash ⟨List.range 256⟩ [5, 17, 255]).getD 0 < 256 :=
  hash_isSome_and_lt ⟨List.range 256⟩ (by decide) (by decide) [5, 17, 255] (by decide)

/-- Claim C6: with a single coordinate the fold performs zero steps and the
hash is one direct table lookup at the raw index `c & 0xff`. -/
theorem hash_single_coord (t : PermutationTable) (c : Int) :
    t.hash [c] = t.values[(Int.land c (Int.ofNat 255)).toNat]? := rfl

/-- Claim C9: the hash depends on each coordinate only through its low byte:
masking a coordinate with `0xff`, or shifting it by any multiple of 256
(hence any negative coordinate and its nonnegative low-byte representative),
leaves the result unchanged. -/
theorem hash_low_byte_invariant (t : PermutationTable) (pre post : List Int) (c k : Int) :
    t.hash (pre ++ Int.land c (Int.ofNat 255) :: post) = t.hash (pre ++ c :: post) ∧
    t.hash (pre ++ (c + 256 * k) :: post) = t.hash (pre ++ c :: post) := by
  have key : ∀ d : Int, rawIndex d = rawIndex c →
      t.hash (pre ++ d :: post) = t.hash (pre ++ c :: post) := by
    intro d hd
    unfold PermutationTable.hash
    rw [List.map_append, List.map_cons, hd, ← List.map_cons, ← List.map_append]
  exact ⟨key _ (rawIndex_land c), key _ (rawIndex_add_mul c k)⟩

/-! ### The sequence codec -/

theorem take_succ_set (l : List Nat) (i : Nat) (v : Nat) (h : i < l.length) :
    (l.set i v).take (i + 1) = l.take i ++ [v] := by
  induction l generalizing i with
  | nil => simp at h
  | cons y t ih =>
    cases i with
    | zero => simp
    | succ n =>
      simp only [List.set_cons_succ, List.take_succ_cons]
      rw [ih n (by simpa using h)]
      simp

theorem fillFrom_ok : ∀ (r : Nat) (seq vals : List Nat) (i : Nat),
    r ≤ seq.length → i + r = vals.length →
    fillFrom vals seq i r = .ok (vals.take i ++ seq.take r) := by
  intro r
  induction r with
  | zero =>
    intro seq vals i _ hi
    simp only [fillFrom, List.take_zero, List.append_nil]
    rw [List.take_of_length_le (by omega)]
  | succ n ih =>
    intro seq vals i hr hi
    cases seq with
    | nil => simp at hr
    | cons v rest =>
      show fillFrom (vals.set i v) rest (i + 1) n = _
      rw [ih rest (vals.set i v) (i + 1) (by simpa using hr) (by simp only [List.length_set]; omega)]
      rw [take_succ_set vals i v (by omega), List.take_succ_cons]
      simp

theorem fillFrom_short : ∀ (r : Nat) (seq vals : List Nat) (i : Nat),
    seq.length < r → fillFrom vals seq i r = .error (deErrorMsg (i + seq.length)) := by
  intro r
  induction r with
  | zero => intro seq vals i h; simp at h
  | succ n ih =>
    intro seq vals i h
    cases seq with
    | nil => simp [fillFrom]
    | cons v rest =>
      show fillFrom (vals.set i v) rest (i + 1) n = _
      have harith : i + 1 + rest.length = i + (v :: rest).length := by
        simp only [List.length_cons]
        omega
      rw [ih rest (vals.set i v) (i + 1) (by simpa using h), harith]

theorem visit_seq_ok (s : List Nat) (h : 256 ≤ s.length) :
    visit_seq s = .ok ⟨s.take 256⟩ := by
  simp only [visit_seq, TABLE_SIZE]
  rw [fillFrom_ok 256 s (List.replicate 256 0) 0 h (by simp)]
  simp

theorem visit_seq_err (s : List Nat) (h : s.length < 256) :
    visit_seq s = .error (deErrorMsg s.length) := by
  simp only [visit_seq, TABLE_SIZE]
  rw [fillFrom_short 256 s (List.replicate 256 0) 0 h]
  simp

/-- Claim C4 (counterexample): a 257-element sequence is not rejected by the
deserializing visitor: it consumes the first 256 elements and succeeds, so
"every input whose length is not exactly 256 fails with the count-reporting
error" is false at length 257. -/
theorem visit_seq_257_accepted :
    (List.replicate 257 (0 : Nat)).length ≠ 256 ∧
    visit_seq (List.replicate 257 (0 : Nat)) = .ok ⟨List.replicate 256 0⟩ := by
  refine ⟨by decide, ?_⟩
  rw [visit_seq_ok (List.replicate 257 0) (by simp)]
  norm_num [List.take_replicate]

/-- Claim C4 (amended): the visitor fails for every input with fewer than 256
elements, with the structured error naming the expected count 256 and the
actual count found; an input with 256 or more elements — permutation or not —
is accepted, the table taking the first 256 values (rejection of trailing
elements, if any, is the enclosing format's business, with no count report). -/
theorem visit_seq_count_behavior (s : List Nat) :
    (s.length < 256 → visit_seq s = .error (deErrorMsg s.length)) ∧
    (256 ≤ s.length → visit_seq s = .ok ⟨s.take 256⟩) :=
  ⟨visit_seq_err s, visit_seq_ok s⟩

/-- Witness for C4 at a 255-element input (count-reporting error) and a
300-element non-permutation input (accepted). -/
theorem visit_seq_count_behavior_witness :
    visit_seq (List.replicate 255 (3 : Nat)) = .error (deErrorMsg 255) ∧
    visit_seq (List.replicate 300 (4 : Nat)) = .ok ⟨List.replicate 256 4⟩ := by
  constructor
  · have h := (visit_seq_count_behavior (List.replicate 255 3)).1 (by simp)
    simpa using h
  · have h := (visit_seq_count_behavior (List.replicate 300 4)).2 (by simp)
    rw [h]
    norm_num [List.take_replicate]

/-- Claim C7: serialization emits exactly the 256 values in index order, and
deserializing that output reproduces the table. -/
theorem serialize_roundtrip (t : PermutationTable) (h256 : t.values.length = 256) :
    t.serialize = t.values ∧ visit_seq t.serialize = .ok t := by
  refine ⟨rfl, ?_⟩
  rw [show t.serialize = t.values from rfl, visit_seq_ok t.values (by omega),
    List.take_of_length_le (by omega)]

/-- Witness for C7 at the identity table. -/
theorem serialize_roundtrip_witness :
    PermutationTable.serialize ⟨List.range 256⟩ = List.range 256 ∧
    visit_seq (PermutationTable.serialize ⟨List.range 256⟩) = .ok ⟨List.range 256⟩ :=
  serialize_roundtrip ⟨List.range 256⟩ (by decide)

/-- Claim C10: deserialize-then-serialize is the identity on arbitrary
256-element byte sequences, permutation or not: the reconstructed table's
values are exactly the input sequence, elementwise. -/
theorem deserialize_serialize_id (s : List Nat) (h : s.length = 256)
    (_hbytes : ∀ v ∈ s, v < 256) :
    visit_seq s = .ok ⟨s⟩ ∧ (PermutationTable.mk s).values = s ∧
      PermutationTable.serialize ⟨s⟩ = s := by
  refine ⟨?_, rfl, rfl⟩
  rw [visit_seq_ok s (by omega), List.take_of_length_le (by omega)]

/-- Witness for C10 at a constant (non-permutation) 256-byte sequence. -/
theorem deserialize_serialize_id_witness :
    visit_seq (List.replicate 256 (7 : Nat)) = .ok ⟨List.replicate 256 7⟩ ∧
    (PermutationTable.mk (List.replicate 256 7)).values = List.replicate 256 7 ∧
    PermutationTable.serialize ⟨List.replicate 256 7⟩ = List.replicate 256 7 :=
  deserialize_serialize_id (List.replicate 256 7) (by decide) (by decide)

/-- Claim C8: the debug rendering is one fixed placeholder for every table;
it is independent of the 256 stored values and reveals none of them. -/
theorem fmtDebug_fixed (t1 t2 : PermutationTable) :
    t1.fmtDebug = t2.fmtDebug ∧ t1.fmtDebug = "PermutationTable \x7b .. \x7d" :=
  ⟨rfl, rfl⟩

/-! ### The shuffle preserves the multiset of values -/

theorem cons_set_perm : ∀ (t : List Nat) (m : Nat) (x a : Nat), t[m]? = some a →
    (a :: t.set m x).Perm (x :: t) := by
  intro t
  induction t with
  | nil => intro m x a h; simp at h
  | cons y s ih =>
    intro m x a h
    cases m with
    | zero =>
      simp only [List.getElem?_cons_zero, Option.some_inj] at h
      subst h
      simp only [List.set_cons_zero]
      exact List.Perm.swap x y s
    | succ n =>
      simp only [List.getElem?_cons_succ] at h
      simp only [List.set_cons_succ]
      exact ((List.Perm.swap y a _).trans ((ih n x a h).cons y)).trans (List.Perm.swap x y s)

theorem set_set_perm : ∀ (l : List Nat) (i j a b : Nat), l[i]? = some a → l[j]? = some b →
    ((l.set i b).set j a).Perm l := by
  intro l
  induction l with
  | nil => intro i j a b hi _; simp at hi
  | cons y t ih =>
    intro i j a b hi hj
    cases i with
    | zero =>
      simp only [List.getElem?_cons_zero, Option.some_inj] at hi
      subst hi
      cases j with
      | zero =>
        simp only [List.getElem?_cons_zero, Option.some_inj] at hj
        subst hj
        simp only [List.set_cons_zero]
        exact List.Perm.refl _
      | succ m =>
        simp only [List.getElem?_cons_succ] at hj
        simp only [List.set_cons_zero, List.set_cons_succ]
        exact cons_set_perm t m y b hj
    | succ n =>
      simp only [List.getElem?_cons_succ] at hi
      cases j with
      | zero =>
        simp only [List.getElem?_cons_zero, Option.some_inj] at hj
        subst hj
        simp only [List.set_cons_succ, List.set_cons_zero]
        exact cons_set_perm t n y a hi
      | succ m =>
        simp only [List.getElem?_cons_succ] at hj
        simp only [List.set_cons_succ]
        exact (ih n m a b hi hj).cons y

theorem listSwap_perm (l : List Nat) (i j : Nat) : (listSwap l i j).Perm l := by
  unfold listSwap
  split
  · rename_i a b hi hj
    exact set_set_perm l i j a b hi hj
  · exact List.Perm.refl l

theorem shuffleGo_perm {σ : Type} (next : σ → Nat × σ) :
    ∀ (i : Nat) (vals : List Nat) (s : σ), ((shuffleGo next vals s i).1).Perm vals := by
  intro i
  induction i with
  | zero => intro vals s; exact List.Perm.refl _
  | succ n ih =>
    intro vals s
    show ((shuffleGo next (listSwap vals (n + 1) (genIndex next (n + 2) s).1)
        (genIndex next (n + 2) s).2 n).1).Perm vals
    exact (ih _ _).trans (listSwap_perm vals (n + 1) _)

theorem sample_fst_values {σ : Type} (next : σ → Nat × σ) (s : σ) :
    (sample next s).1.values =
      (shuffleGo next (List.range TABLE_SIZE) s ((List.range TABLE_SIZE).length - 1)).1 := by
  simp only [sample, shuffle]

theorem new_values_eq {σ : Type} (next : σ → Nat × σ) (fromSeed16 : List Nat → σ)
    (seed : Nat) :
    (PermutationTable.new next fromSeed16 seed).values =
      (sample next (fromSeed16 (newBuffer seed))).1.values := by
  simp only [PermutationTable.new]

/-- Claim C1: for every generator model and state — so in particular for the
seeded `XorShiftRng` of `new` and any caller-supplied generator of the
`Distribution::sample` path — the sampled table's values are a permutation of
the integers `0..255`: identity initialization followed by an in-place
swap-based shuffle. -/
theorem sample_values_perm (σ : Type) (next : σ → Nat × σ) (s : σ)
    (fromSeed16 : List Nat → σ) (seed : Nat) :
    ((sample next s).1.values).Perm (List.range 256) ∧
    ((PermutationTable.new next fromSeed16 seed).values).Perm (List.range 256) := by
  have key : ∀ s' : σ, ((sample next s').1.values).Perm (List.range 256) := by
    intro s'
    rw [sample_fst_values]
    have h := shuffleGo_perm next ((List.range TABLE_SIZE).length - 1) (List.range TABLE_SIZE) s'
    rw [show TABLE_SIZE = 256 from rfl] at h
    exact h
  refine ⟨key s, ?_⟩
  rw [new_values_eq]
  exact key (fromSeed16 (newBuffer seed))

/-- Claim C3: the 16-byte expansion buffer has byte 0 equal to the marker 1,
bytes 1..3 equal to 0, and for each block `i` in `1..=3` the seed's four
bytes in little-endian order (bit-shift extraction, `as u8` truncation) at
offsets `i*4 .. i*4+3`; `new` is exactly `sample` on a generator seeded with
that buffer. -/
theorem new_seed_buffer (σ : Type) (next : σ → Nat × σ) (fromSeed16 : List Nat → σ)
    (seed : Nat) :
    newBuffer seed =
      [1, 0, 0, 0,
       seed % 256, (seed >>> 8) % 256, (seed >>> 16) % 256, (seed >>> 24) % 256,
       seed % 256, (seed >>> 8) % 256, (seed >>> 16) % 256, (seed >>> 24) % 256,
       seed % 256, (seed >>> 8) % 256, (seed >>> 16) % 256, (seed >>> 24) % 256] ∧
    PermutationTable.new next fromSeed16 seed =
      (sample next (fromSeed16 (newBuffer seed))).1 :=
  ⟨rfl, rfl⟩
